import Mathlib

/-!
Verification of the containerfile-updater core (main.go) against its
natural-language specification.

Strings are modelled as lists of characters; Go string helpers
(strings.Contains, strings.Split, strings.LastIndex, strings.ToLower,
strings.Replace with limit 1) are embedded as executable list functions.
The BuildKit AST is modelled as a list of instruction nodes, each carrying
the instruction keyword, the chain of argument tokens, and the 1-based
line span, exactly the data main.go reads from parser.Node.
-/

set_option maxRecDepth 4000

namespace CFU

/-- Convert a string literal to the character-list representation used
throughout this development. -/
def chars (s : String) : List Char := s.data

/-- Model of strings.ToLower restricted to ASCII case folding, which is all
the source ever compares (instruction keywords, stage aliases, scratch). -/
def lower (s : List Char) : List Char := s.map Char.toLower

/-- Model of strings.HasPrefix: pat is an initial segment of s. -/
def leadsWith : List Char → List Char → Bool
  | [], _ => true
  | _ :: _, [] => false
  | a :: as, b :: bs => a = b && leadsWith as bs

/-- Model of strings.Contains: pat occurs contiguously somewhere in s. -/
def containsSeq (pat : List Char) : List Char → Bool
  | [] => leadsWith pat []
  | c :: rest => leadsWith pat (c :: rest) || containsSeq pat rest

/-- Model of strings.Split with a one-character separator: the list of
maximal separator-free chunks, empty chunks included. -/
def goSplit (sep : Char) : List Char → List (List Char)
  | [] => [[]]
  | c :: rest =>
    if c = sep then [] :: goSplit sep rest
    else
      match goSplit sep rest with
      | [] => [[c]]
      | r :: rs => (c :: r) :: rs

/-- Model of strings.LastIndex with a one-character needle: index of the
last occurrence, or none. -/
def lastIndexOf (c : Char) : List Char → Option Nat
  | [] => none
  | x :: xs =>
    match lastIndexOf c xs with
    | some i => some (i + 1)
    | none => if x = c then some 0 else none

/-- Worker for replaceFirst on a nonempty pattern: replace the leftmost
occurrence of old, leave the rest untouched. -/
def replaceFirstAux (old new : List Char) : List Char → List Char
  | [] => []
  | c :: rest =>
    if leadsWith old (c :: rest) then new ++ (c :: rest).drop old.length
    else c :: replaceFirstAux old new rest

/-- Model of strings.Replace(s, old, new, 1): replace the first occurrence
of old by new (for empty old, Go inserts new at the front). -/
def replaceFirst (old new s : List Char) : List Char :=
  if old = [] then new ++ s else replaceFirstAux old new s

/-- ImageReference, the canonical parsed form of a FROM argument
(main.go lines 33-39). Empty list models the empty Go string. -/
structure ImageReference where
  Registry : List Char
  Repository : List Char
  Tag : List Char
  Digest : List Char
  Original : List Char
deriving DecidableEq, Repr

/-- Character class of the host part of the registry pattern, the class
of letters, digits, dot and dash (main.go line 259). -/
def isHostChar (c : Char) : Bool := c.isAlphanum || c = '.' || c = '-'

/-- Model of registryRegex.FindStringSubmatch on the anchored pattern
host = one or more host characters, an optional colon-and-digits port,
then a slash, then a nonempty remainder; the remainder group stops at a
newline because a dot in a Go regexp does not match a newline. Returns
(group 1, group 2). Backtracking cannot produce any other division: the
host class excludes both the slash and the colon, so shrinking the
greedy host or port run never reaches the required slash. -/
def registryRegexMatch (s : List Char) : Option (List Char × List Char) :=
  if s.takeWhile isHostChar = [] then none
  else
    match s.drop (s.takeWhile isHostChar).length with
    | [] => none
    | c :: rest2 =>
      if c = ':' then
        if rest2.takeWhile Char.isDigit = [] then none
        else
          match rest2.drop (rest2.takeWhile Char.isDigit).length with
          | [] => none
          | c2 :: rem =>
            if c2 = '/' then
              if rem.takeWhile (fun ch => ch ≠ '\n') = [] then none
              else
                some (s.takeWhile isHostChar ++
                        ':' :: rest2.takeWhile Char.isDigit,
                      rem.takeWhile (fun ch => ch ≠ '\n'))
            else none
      else if c = '/' then
        if rest2.takeWhile (fun ch => ch ≠ '\n') = [] then none
        else some (s.takeWhile isHostChar,
                   rest2.takeWhile (fun ch => ch ≠ '\n'))
      else none

/-- Split repository and tag on the last colon, defaulting the tag to
latest (main.go lines 273-279 and 285-291 and 303-309). -/
def splitRepoTag (s : List Char) : List Char × List Char :=
  match lastIndexOf ':' s with
  | some i => (s.take i, s.drop (i + 1))
  | none => (s, chars "latest")

/-- Add the library/ prefix for official single-component Docker Hub
names (main.go lines 294-296 and 312-314). -/
def addLibrary (repo : List Char) : List Char :=
  if containsSeq (chars "/") repo then repo else chars "library/" ++ repo

/-- The registry heuristic of main.go lines 267-269: the candidate host is
a real registry iff it contains a dot, contains a colon, or is localhost. -/
def isRegistryHost (seg : List Char) : Bool :=
  containsSeq (chars ".") seg || containsSeq (chars ":") seg ||
    seg = chars "localhost"

/-- Docker Hub fallback of parseImageReference: registry docker.io,
repository and tag split from the whole string, library/ prefix for
single-component repositories (main.go lines 280-297 and 298-315). -/
def hubParse (imageRef : List Char) : ImageReference :=
  let rt := splitRepoTag imageRef
  ⟨chars "docker.io", addLibrary rt.1, rt.2, [], imageRef⟩

/-- The digest-free path of parseImageReference (main.go lines 254-322):
try the registry regex; if the candidate host passes the registry
heuristic, split the remainder into repository and tag, otherwise fall
back to the Docker Hub interpretation of the whole string. -/
def parseImageReferenceBase (imageRef : List Char) : ImageReference :=
  match registryRegexMatch imageRef with
  | some (potentialRegistry, remainder) =>
    if isRegistryHost potentialRegistry then
      let rt := splitRepoTag remainder
      ⟨potentialRegistry, rt.1, rt.2, [], imageRef⟩
    else hubParse imageRef
  | none => hubParse imageRef

/-- parseImageReference (main.go lines 233-323). A reference containing
the digest marker is split on the at sign; anything but exactly two parts
is the error return. The source then parses the base recursively; because
a two-part split means the base holds no at sign at all, that recursive
call always takes the digest-free path, so it is embedded directly as
parseImageReferenceBase (the equation parseImageReference_digest_eq below
re-establishes the recursive reading of the source). The digest-free path
never fails. -/
def parseImageReference (imageRef : List Char) : Option ImageReference :=
  if containsSeq (chars "@sha256:") imageRef then
    match goSplit '@' imageRef with
    | [baseRef, digest] =>
      some { parseImageReferenceBase baseRef with
               Digest := digest, Original := imageRef }
    | _ => none
  else some (parseImageReferenceBase imageRef)

example : parseImageReference (chars "ubuntu:20.04") =
    some ⟨chars "docker.io", chars "library/ubuntu", chars "20.04", [],
          chars "ubuntu:20.04"⟩ := by decide

example : parseImageReference (chars "stagex/core-filesystem:latest") =
    some ⟨chars "docker.io", chars "stagex/core-filesystem", chars "latest",
          [], chars "stagex/core-filesystem:latest"⟩ := by decide

example : parseImageReference (chars "gcr.io/distroless/static:nonroot") =
    some ⟨chars "gcr.io", chars "distroless/static", chars "nonroot", [],
          chars "gcr.io/distroless/static:nonroot"⟩ := by decide

example : parseImageReference (chars "registry.company.com:5000/app:latest") =
    some ⟨chars "registry.company.com:5000", chars "app", chars "latest", [],
          chars "registry.company.com:5000/app:latest"⟩ := by decide

example : parseImageReference (chars "localhost:5000/myapp:dev") =
    some ⟨chars "localhost:5000", chars "myapp", chars "dev", [],
          chars "localhost:5000/myapp:dev"⟩ := by decide

example : parseImageReference (chars "alpine") =
    some ⟨chars "docker.io", chars "library/alpine", chars "latest", [],
          chars "alpine"⟩ := by decide

example : parseImageReference
      (chars "ubuntu@sha256:86ac87f73641c920fb42cc9612d4fb57b5626b56bd8368b316b5d4f2df5e49c5") =
    some ⟨chars "docker.io", chars "library/ubuntu", chars "latest",
          chars "sha256:86ac87f73641c920fb42cc9612d4fb57b5626b56bd8368b316b5d4f2df5e49c5",
          chars "ubuntu@sha256:86ac87f73641c920fb42cc9612d4fb57b5626b56bd8368b316b5d4f2df5e49c5"⟩ := by
  decide

/-- A top-level instruction node of the BuildKit AST, restricted to the
data main.go reads: the instruction keyword (Value), the values of the
Next-linked argument tokens, and the 1-based line span. The verbatim
Original text of the node is only ever logged and is omitted. -/
structure Node where
  Value : List Char
  args : List (List Char)
  StartLine : Nat
  EndLine : Nat
deriving DecidableEq, Repr

/-- FromCommand (main.go lines 112-117): one FROM occurrence with its
node, parsed image and line span. -/
structure FromCommand where
  Node : Node
  Image : ImageReference
  LineStart : Nat
  LineEnd : Nat
deriving DecidableEq, Repr

/-- Keyword comparison used for every instruction dispatch in main.go. -/
def isFromNode (n : Node) : Bool := lower n.Value = chars "from"

/-- Scan of collectBuildStageAlias (main.go lines 160-179): starting from
the token after the image argument, find the first AS keyword and return
the token after it, if any; the source stops at the first AS either way. -/
def findAsClause : List (List Char) → Option (List Char)
  | [] => none
  | tok :: rest =>
    if lower tok = chars "as" then
      match rest with
      | a :: _ => some a
      | [] => none
    else findAsClause rest

/-- collectBuildStageAlias (main.go lines 160-179): the lowercased stage
alias recorded for a FROM node, none when the node has no arguments or no
AS clause with a following token. -/
def collectBuildStageAlias (node : Node) : Option (List Char) :=
  match node.args with
  | [] => none
  | _ :: rest => (findAsClause rest).map lower

/-- First pass of extractFromCommands (main.go lines 123-128): the stage
alias set collected from every FROM node, modelled as a list whose
membership is the map lookup du.buildStages. -/
def collectStages : List Node → List (List Char)
  | [] => []
  | n :: rest =>
    if isFromNode n then
      match collectBuildStageAlias n with
      | some a => a :: collectStages rest
      | none => collectStages rest
    else collectStages rest

/-- parseFromCommand (main.go lines 182-230). none models the two error
returns (missing or empty image argument, or a failing reference parse);
some (ref, true) marks a build-stage or scratch reference, some (ref,
false) a genuine image. The forward scan for an AS alias in the source is
logging only and is omitted. -/
def parseFromCommand (stages : List (List Char)) (node : Node) :
    Option (ImageReference × Bool) :=
  match node.args with
  | [] => none
  | imageStr :: _ =>
    if imageStr = [] then none
    else if lower imageStr ∈ stages then some (⟨[], [], [], [], imageStr⟩, true)
    else if lower imageStr = chars "scratch" then
      some (⟨[], [], [], [], imageStr⟩, true)
    else
      match parseImageReference imageStr with
      | some r => some (r, false)
      | none => none

/-- Second pass of extractFromCommands (main.go lines 130-154): walk the
children in order; skip non-FROM nodes, parse failures and stage or
scratch references; keep genuine images with their line span. -/
def extractPass (stages : List (List Char)) : List Node → List FromCommand
  | [] => []
  | n :: rest =>
    if isFromNode n then
      match parseFromCommand stages n with
      | some (r, false) =>
        ⟨n, r, n.StartLine, n.EndLine⟩ :: extractPass stages rest
      | _ => extractPass stages rest
    else extractPass stages rest

/-- extractFromCommands (main.go lines 120-157): collect every stage alias
first, then classify; the error return of the source is always nil. -/
def extractFromCommands (ast : List Node) : List FromCommand :=
  extractPass (collectStages ast) ast

/-- Per-command step of updateFromCommandsWithDigests (main.go lines
330-342): on a successful fetch overwrite the digest, on a failure leave
the command untouched (the warning is logged only). The fetch oracle
abstracts fetchImageDigest, whose network behaviour is outside the
embedding. -/
def updOne (fetch : ImageReference → Option (List Char))
    (cmd : FromCommand) : FromCommand :=
  match fetch cmd.Image with
  | none => cmd
  | some d => { cmd with Image := { cmd.Image with Digest := d } }

/-- updateFromCommandsWithDigests (main.go lines 326-345): the sequential
per-reference loop; the error return of the source is always nil. -/
def updateFromCommandsWithDigests (fetch : ImageReference → Option (List Char)) :
    List FromCommand → List FromCommand
  | [] => []
  | cmd :: rest => updOne fetch cmd :: updateFromCommandsWithDigests fetch rest

/-- The replacement text built at main.go lines 413-420: Docker Hub
references drop the registry host, all others keep it. -/
def newImageRef (img : ImageReference) : List Char :=
  if img.Registry = chars "docker.io" then img.Repository ++ '@' :: img.Digest
  else img.Registry ++ '/' :: img.Repository ++ '@' :: img.Digest

/-- Lookup in the updateMap of main.go lines 398-404: the map holds only
commands with a nonempty digest, keyed by LineStart; Go map insertion
makes the last write win, hence getLast? of the matching entries. -/
def updateMapLookup (cmds : List FromCommand) (lineNum : Nat) :
    Option FromCommand :=
  (cmds.filter fun cmd =>
    decide (cmd.Image.Digest ≠ [] ∧ cmd.LineStart = lineNum)).getLast?

/-- Per-line step of the reconstruction loop (main.go lines 408-432). -/
def applyLookup (lookup : Nat → Option FromCommand) (lineNum : Nat)
    (line : List Char) : List Char :=
  match lookup lineNum with
  | some cmd => replaceFirst cmd.Image.Original (newImageRef cmd.Image) line
  | none => line

/-- The reconstruction loop over the original lines, carrying the 1-based
line number (main.go lines 408-432). -/
def reconstructAux (lookup : Nat → Option FromCommand) :
    Nat → List (List Char) → List (List Char)
  | _, [] => []
  | lineNum, line :: rest =>
    applyLookup lookup lineNum line :: reconstructAux lookup (lineNum + 1) rest

/-- reconstructAndWriteContainerfile, line-building part (main.go lines
397-432): rewrite exactly the lines whose number is in the update map. -/
def reconstructLines (originalLines : List (List Char))
    (updatedCommands : List FromCommand) : List (List Char) :=
  reconstructAux (updateMapLookup updatedCommands) 1 originalLines

/-- writeContainerfile, content part (main.go lines 455-460): each line is
written followed by a newline. -/
def writeContainerfile (lines : List (List Char)) : List Char :=
  (lines.map (fun l => l ++ ['\n'])).flatten

/-- Observable file-system effect of one run: the content written to the
containerfile path (none when the file is never rewritten) and whether
the backup copy was attempted. -/
structure RunEffect where
  written : Option (List Char)
  backupMade : Bool
deriving DecidableEq, Repr

/-- UpdateContainerfileWithLatestDigests after a successful external parse
(main.go lines 51-87): with no extracted FROM commands the run returns
before any resolution, reconstruction, backup or write; otherwise it
resolves digests, rebuilds the lines and writes them, creating the backup
inside writeContainerfile (main.go lines 439-467). -/
def runUpdate (ast : List Node) (originalLines : List (List Char))
    (fetch : ImageReference → Option (List Char)) : RunEffect :=
  let fromCommands := extractFromCommands ast
  if fromCommands.length = 0 then ⟨none, false⟩
  else
    let updatedCommands := updateFromCommandsWithDigests fetch fromCommands
    ⟨some (writeContainerfile (reconstructLines originalLines updatedCommands)),
     true⟩

example :
    extractFromCommands
      [⟨chars "FROM", [chars "ubuntu:20.04", chars "AS", chars "base"], 1, 1⟩,
       ⟨chars "RUN", [chars "apt-get update"], 2, 2⟩,
       ⟨chars "FROM", [chars "base"], 4, 4⟩,
       ⟨chars "FROM", [chars "scratch"], 5, 5⟩,
       ⟨chars "FROM", [chars "node:16"], 6, 6⟩] =
      [⟨⟨chars "FROM", [chars "ubuntu:20.04", chars "AS", chars "base"], 1, 1⟩,
        ⟨chars "docker.io", chars "library/ubuntu", chars "20.04", [],
         chars "ubuntu:20.04"⟩, 1, 1⟩,
       ⟨⟨chars "FROM", [chars "node:16"], 6, 6⟩,
        ⟨chars "docker.io", chars "library/node", chars "16", [],
         chars "node:16"⟩, 6, 6⟩] := by decide

example :
    reconstructLines
      [chars "FROM ubuntu:20.04 AS base", chars "RUN apt-get update"]
      [⟨⟨chars "FROM", [chars "ubuntu:20.04", chars "AS", chars "base"], 1, 1⟩,
        ⟨chars "docker.io", chars "library/ubuntu", chars "20.04",
         chars "sha256:abc", chars "ubuntu:20.04"⟩, 1, 1⟩] =
      [chars "FROM library/ubuntu@sha256:abc AS base",
       chars "RUN apt-get update"] := by decide

theorem leadsWith_iff (p s : List Char) :
    leadsWith p s = true ↔ ∃ t, s = p ++ t := by
  induction p generalizing s with
  | nil => simp [leadsWith]
  | cons a as ih =>
    cases s with
    | nil =>
      constructor
      · intro h; exact Bool.noConfusion h
      · rintro ⟨t, h⟩; exact List.noConfusion h
    | cons b bs =>
      simp only [leadsWith, Bool.and_eq_true, decide_eq_true_eq, ih,
        List.cons_append]
      constructor
      · rintro ⟨rfl, t, rfl⟩; exact ⟨t, rfl⟩
      · rintro ⟨t, h⟩
        injection h with h1 h2
        exact ⟨h1.symm, t, h2⟩

theorem containsSeq_iff (p s : List Char) :
    containsSeq p s = true ↔ ∃ a b, s = a ++ p ++ b := by
  induction s with
  | nil =>
    simp only [containsSeq, leadsWith_iff]
    constructor
    · rintro ⟨t, h⟩
      exact ⟨[], t, by simpa using h⟩
    · rintro ⟨a, b, h⟩
      rcases List.append_eq_nil.mp h.symm with ⟨h1, hb⟩
      rcases List.append_eq_nil.mp h1 with ⟨ha, hp⟩
      exact ⟨[], by simp [hp]⟩
  | cons c rest ih =>
    simp only [containsSeq, Bool.or_eq_true, leadsWith_iff, ih]
    constructor
    · rintro (⟨t, ht⟩ | ⟨a, b, hab⟩)
      · exact ⟨[], t, by simpa using ht⟩
      · exact ⟨c :: a, b, by simp [hab]⟩
    · rintro ⟨a, b, hab⟩
      cases a with
      | nil => exact Or.inl ⟨b, by simpa using hab⟩
      | cons x xs =>
        injection hab with h1 h2
        exact Or.inr ⟨xs, b, h2⟩

theorem containsSeq_eq_false_of_not_mem {c : Char} {p s : List Char}
    (hc : c ∈ p) (hs : c ∉ s) : containsSeq p s = false := by
  rw [Bool.eq_false_iff]
  intro h
  rcases (containsSeq_iff p s).mp h with ⟨a, b, rfl⟩
  exact hs (by simp [hc])

theorem goSplit_ne_nil (c : Char) (s : List Char) : goSplit c s ≠ [] := by
  induction s with
  | nil => simp [goSplit]
  | cons x xs ih =>
    by_cases hx : x = c
    · simp [goSplit, hx]
    · simp only [goSplit, if_neg hx]
      cases h : goSplit c xs with
      | nil => simp
      | cons r rs => simp

theorem goSplit_single {c : Char} {s t : List Char}
    (h : goSplit c s = [t]) : s = t ∧ c ∉ s := by
  induction s generalizing t with
  | nil =>
    simp only [goSplit] at h
    injection h with h1
    exact ⟨h1, by simp⟩
  | cons x xs ih =>
    by_cases hx : x = c
    · rw [goSplit, if_pos hx] at h
      injection h with h1 h2
      exact absurd h2 (goSplit_ne_nil c xs)
    · rw [goSplit, if_neg hx] at h
      cases hg : goSplit c xs with
      | nil => exact absurd hg (goSplit_ne_nil c xs)
      | cons r rs =>
        rw [hg] at h
        injection h with h1 h2
        rcases ih (by rw [hg, h2] : goSplit c xs = [r]) with ⟨rfl, hmem⟩
        subst h1
        exact ⟨rfl, by
          intro hm
          rcases List.mem_cons.mp hm with h | h
          · exact hx h.symm
          · exact hmem h⟩

theorem goSplit_pair {c : Char} {s a b : List Char}
    (h : goSplit c s = [a, b]) : s = a ++ c :: b ∧ c ∉ a ∧ c ∉ b := by
  induction s generalizing a with
  | nil => simp [goSplit] at h
  | cons x xs ih =>
    by_cases hx : x = c
    · rw [goSplit, if_pos hx] at h
      injection h with h1 h2
      rcases goSplit_single h2 with ⟨rfl, hmem⟩
      subst h1 hx
      exact ⟨rfl, by simp, hmem⟩
    · rw [goSplit, if_neg hx] at h
      cases hg : goSplit c xs with
      | nil => exact absurd hg (goSplit_ne_nil c xs)
      | cons r rs =>
        rw [hg] at h
        injection h with h1 h2
        rcases ih (by rw [hg, h2] : goSplit c xs = [r, b]) with ⟨hs, hra, hrb⟩
        subst h1
        refine ⟨by simp [hs], ?_, hrb⟩
        intro hm
        rcases List.mem_cons.mp hm with h | h
        · exact hx h.symm
        · exact hra h

theorem lastIndexOf_eq_none {c : Char} {s : List Char} (h : c ∉ s) :
    lastIndexOf c s = none := by
  induction s with
  | nil => rfl
  | cons x xs ih =>
    simp only [List.mem_cons, not_or] at h
    have hx : ¬(x = c) := fun hx => h.1 hx.symm
    simp [lastIndexOf, ih h.2, hx]

theorem lastIndexOf_decomp {c : Char} {s : List Char} {i : Nat}
    (h : lastIndexOf c s = some i) :
    s = s.take i ++ c :: s.drop (i + 1) := by
  induction s generalizing i with
  | nil => simp [lastIndexOf] at h
  | cons x xs ih =>
    simp only [lastIndexOf] at h
    cases hg : lastIndexOf c xs with
    | some j =>
      rw [hg] at h
      injection h with h1
      subst h1
      simpa using ih hg
    | none =>
      rw [hg] at h
      by_cases hx : x = c
      · rw [if_pos hx] at h
        injection h with h1
        subst h1 hx
        simp
      · rw [if_neg hx] at h
        cases h

theorem takeWhile_length_drop (p : Char → Bool) (s : List Char) :
    s.drop (s.takeWhile p).length = s.dropWhile p := by
  induction s with
  | nil => rfl
  | cons x xs ih =>
    by_cases hx : p x
    · simp [List.takeWhile_cons, List.dropWhile_cons, hx, ih]
    · simp [List.takeWhile_cons, List.dropWhile_cons, hx]

theorem getLast?_append_right {l₁ l₂ : List Char} (h : l₂ ≠ []) :
    (l₁ ++ l₂).getLast? = l₂.getLast? := by
  induction l₁ with
  | nil => rfl
  | cons x xs ih =>
    rw [List.cons_append, List.getLast?_cons, ih]
    cases l₂ with
    | nil => exact absurd rfl h
    | cons y ys => simp [List.getLast?_cons]

theorem replaceFirstAux_of_not_contains {old s : List Char} (new : List Char)
    (h : containsSeq old s = false) : replaceFirstAux old new s = s := by
  induction s with
  | nil => rfl
  | cons c rest ih =>
    simp only [containsSeq, Bool.or_eq_false_iff] at h
    rw [replaceFirstAux, if_neg (by rw [h.1]; exact Bool.false_ne_true),
      ih h.2]

theorem replaceFirst_of_not_contains {old s : List Char} (new : List Char)
    (h : containsSeq old s = false) : replaceFirst old new s = s := by
  have hold : old ≠ [] := by
    intro hnil
    subst hnil
    have htrue : containsSeq [] s = true := by
      cases s <;> simp [containsSeq, leadsWith]
    rw [htrue] at h
    exact Bool.noConfusion h
  rw [replaceFirst, if_neg hold]
  exact replaceFirstAux_of_not_contains new h

theorem replaceFirst_first_occurrence {old s : List Char} (new : List Char)
    (hold : old ≠ []) (h : containsSeq old s = true) :
    ∃ a b, s = a ++ old ++ b ∧ replaceFirst old new s = a ++ new ++ b ∧
      ∀ a' b', s = a' ++ old ++ b' → a.length ≤ a'.length := by
  rw [replaceFirst, if_neg hold]
  induction s with
  | nil =>
    exfalso
    cases old with
    | nil => exact hold rfl
    | cons x xs => exact Bool.noConfusion h
  | cons c rest ih =>
    by_cases hl : leadsWith old (c :: rest) = true
    · rcases (leadsWith_iff _ _).mp hl with ⟨t, ht⟩
      refine ⟨[], t, by simpa using ht, ?_, fun a' b' _ => Nat.zero_le _⟩
      rw [replaceFirstAux, if_pos hl, ht, List.drop_left]
      simp
    · have hrest : containsSeq old rest = true := by
        rcases Bool.or_eq_true_iff.mp (by simpa [containsSeq] using h) with
          h' | h'
        · exact absurd h' hl
        · exact h'
      rcases ih hrest with ⟨a, b, h1, h2, h3⟩
      refine ⟨c :: a, b, by simp [h1], ?_, ?_⟩
      · rw [replaceFirstAux, if_neg (by simp [hl]), h2]
        simp
      · intro a' b' hab
        cases a' with
        | nil =>
          exfalso
          exact hl ((leadsWith_iff _ _).mpr ⟨b', by simpa using hab⟩)
        | cons c' a'' =>
          injection hab with hc hrest'
          exact Nat.succ_le_succ (h3 a'' b' hrest')

theorem reconstructAux_length (lookup : Nat → Option FromCommand)
    (start : Nat) (lines : List (List Char)) :
    (reconstructAux lookup start lines).length = lines.length := by
  induction lines generalizing start with
  | nil => rfl
  | cons line rest ih => simp [reconstructAux, ih]

theorem reconstructAux_getElem? (lookup : Nat → Option FromCommand)
    (start : Nat) (lines : List (List Char)) (k : Nat) :
    (reconstructAux lookup start lines)[k]? =
      (lines[k]?).map (applyLookup lookup (start + k)) := by
  induction lines generalizing start k with
  | nil => simp [reconstructAux]
  | cons line rest ih =>
    cases k with
    | zero => simp [reconstructAux]
    | succ k =>
      have harith : start + 1 + k = start + (k + 1) := by omega
      simp only [reconstructAux, List.getElem?_cons_succ, ih, harith]

theorem update_eq_map (fetch : ImageReference → Option (List Char))
    (cmds : List FromCommand) :
    updateFromCommandsWithDigests fetch cmds = cmds.map (updOne fetch) := by
  induction cmds with
  | nil => rfl
  | cons cmd rest ih => simp [updateFromCommandsWithDigests, ih]

theorem updOne_LineStart (fetch : ImageReference → Option (List Char))
    (cmd : FromCommand) : (updOne fetch cmd).LineStart = cmd.LineStart := by
  rw [updOne]
  cases fetch cmd.Image <;> rfl

theorem updOne_of_fetch_none {fetch : ImageReference → Option (List Char)}
    {cmd : FromCommand} (h : fetch cmd.Image = none) :
    updOne fetch cmd = cmd := by
  rw [updOne, h]

theorem updateMapLookup_spec {cmds : List FromCommand} {n : Nat}
    {cmd : FromCommand} (h : updateMapLookup cmds n = some cmd) :
    cmd ∈ cmds ∧ cmd.Image.Digest ≠ [] ∧ cmd.LineStart = n := by
  have hopt : cmd ∈ (cmds.filter fun c =>
      decide (c.Image.Digest ≠ [] ∧ c.LineStart = n)).getLast? := by
    rw [Option.mem_def]
    exact h
  rcases List.mem_getLast?_eq_getLast hopt with ⟨hne, heq⟩
  have hmem : cmd ∈ cmds.filter fun c =>
      decide (c.Image.Digest ≠ [] ∧ c.LineStart = n) := by
    rw [heq]
    exact List.getLast_mem hne
  rcases List.mem_filter.mp hmem with ⟨h1, h2⟩
  rcases of_decide_eq_true h2 with ⟨h3, h4⟩
  exact ⟨h1, h3, h4⟩

theorem updateMapLookup_eq_none {cmds : List FromCommand} {n : Nat}
    (h : ∀ cmd ∈ cmds, ¬(cmd.Image.Digest ≠ [] ∧ cmd.LineStart = n)) :
    updateMapLookup cmds n = none := by
  rw [updateMapLookup]
  have : cmds.filter
      (fun cmd => decide (cmd.Image.Digest ≠ [] ∧ cmd.LineStart = n)) = [] := by
    rw [List.filter_eq_nil_iff]
    intro cmd hmem
    simpa using h cmd hmem
  rw [this]
  rfl

theorem extractPass_append (stages : List (List Char))
    (l₁ l₂ : List Node) :
    extractPass stages (l₁ ++ l₂) =
      extractPass stages l₁ ++ extractPass stages l₂ := by
  induction l₁ with
  | nil => rfl
  | cons n rest ih =>
    by_cases hf : isFromNode n = true
    · cases hp : parseFromCommand stages n with
      | none => simp [extractPass, hf, hp, ih]
      | some pr =>
        rcases pr with ⟨r, b⟩
        cases b
        · simp [extractPass, hf, hp, ih]
        · simp [extractPass, hf, hp, ih]
    · simp [extractPass, hf, ih]

theorem collectStages_mem {ast : List Node} {n : Node} {a : List Char}
    (hmem : n ∈ ast) (hfrom : isFromNode n = true)
    (halias : collectBuildStageAlias n = some a) :
    a ∈ collectStages ast := by
  induction ast with
  | nil => cases hmem
  | cons m rest ih =>
    rcases List.mem_cons.mp hmem with rfl | hmem'
    · simp [collectStages, hfrom, halias]
    · have hrec := ih hmem'
      by_cases hf : isFromNode m = true
      · cases hc : collectBuildStageAlias m with
        | none => simpa [collectStages, hf, hc] using hrec
        | some a' => simp [collectStages, hf, hc, hrec]
      · simpa [collectStages, hf] using hrec

theorem registryRegexMatch_decomp {s seg rem : List Char}
    (h : registryRegexMatch s = some (seg, rem)) :
    seg ≠ [] ∧ rem ≠ [] ∧
      ∃ tail, s = seg ++ '/' :: (rem ++ tail) ∧ ('\n' ∉ s → tail = []) := by
  have hs : s.takeWhile isHostChar ++ s.dropWhile isHostChar = s :=
    List.takeWhile_append_dropWhile (p := isHostChar) (l := s)
  rw [registryRegexMatch, takeWhile_length_drop] at h
  split at h
  · cases h
  next hh =>
    split at h
    · cases h
    next c rest2 hd =>
      rw [takeWhile_length_drop] at h
      split at h
      next hc =>
        split at h
        · cases h
        next hp =>
          split at h
          · cases h
          next c2 rem1 hd2 =>
            split at h
            next hc2 =>
              split at h
              · cases h
              next hr =>
                injection h with h'
                injection h' with hseg hrem
                have hrest2 : rest2 = rest2.takeWhile Char.isDigit ++
                    (c2 :: rem1) := by
                  conv_lhs =>
                    rw [← List.takeWhile_append_dropWhile
                      (p := Char.isDigit) (l := rest2)]
                  rw [hd2]
                have hrem1 : rem1 = rem1.takeWhile (fun ch => ch ≠ '\n') ++
                    rem1.dropWhile (fun ch => ch ≠ '\n') :=
                  (List.takeWhile_append_dropWhile _ _).symm
                refine ⟨by simp [← hseg, hh], by rw [← hrem]; exact hr,
                  rem1.dropWhile (fun ch => ch ≠ '\n'), ?_, ?_⟩
                · rw [← hs, hd, hrest2, ← hseg, ← hrem, hc, hc2]
                  conv_lhs => rw [hrem1]
                  simp
                · intro hnl
                  rw [List.dropWhile_eq_nil_iff]
                  intro x hx
                  simp only [ne_eq, decide_not, Bool.not_eq_true',
                    decide_eq_false_iff_not, not_not]
                  intro hxeq
                  apply hnl
                  rw [← hs, hd, hrest2]
                  subst hxeq
                  simp [hx]
            next hc2 => cases h
      next hc =>
        split at h
        next hc' =>
          split at h
          · cases h
          next hr =>
            injection h with h'
            injection h' with hseg hrem
            have hrest2 : rest2 = rest2.takeWhile (fun ch => ch ≠ '\n') ++
                rest2.dropWhile (fun ch => ch ≠ '\n') :=
              (List.takeWhile_append_dropWhile _ _).symm
            refine ⟨by rw [← hseg]; exact hh, by rw [← hrem]; exact hr,
              rest2.dropWhile (fun ch => ch ≠ '\n'), ?_, ?_⟩
            · rw [← hs, hd, ← hseg, ← hrem, hc']
              conv_lhs => rw [hrest2]
            · intro hnl
              rw [List.dropWhile_eq_nil_iff]
              intro x hx
              simp only [ne_eq, decide_not, Bool.not_eq_true',
                decide_eq_false_iff_not, not_not]
              intro hxeq
              apply hnl
              rw [← hs, hd]
              subst hxeq
              simp [hx]
        next hc' => cases h

theorem registryRegexMatch_eq_none_of_no_slash {s : List Char}
    (h : '/' ∉ s) : registryRegexMatch s = none := by
  cases hm : registryRegexMatch s with
  | none => rfl
  | some pr =>
    rcases pr with ⟨seg, rem⟩
    rcases registryRegexMatch_decomp hm with ⟨_, _, tail, hs, _⟩
    exact absurd (by rw [hs]; simp : '/' ∈ s) h

theorem parse_of_no_digest {s : List Char}
    (h : containsSeq (chars "@sha256:") s = false) :
    parseImageReference s = some (parseImageReferenceBase s) := by
  rw [parseImageReference, if_neg (by rw [h]; exact Bool.false_ne_true)]

theorem parseBase_eq_registry {s seg rem : List Char}
    (hm : registryRegexMatch s = some (seg, rem))
    (hreg : isRegistryHost seg = true) :
    parseImageReferenceBase s =
      ⟨seg, (splitRepoTag rem).1, (splitRepoTag rem).2, [], s⟩ := by
  rw [parseImageReferenceBase, hm]
  simp [hreg]

theorem parseBase_eq_hub_of_match {s seg rem : List Char}
    (hm : registryRegexMatch s = some (seg, rem))
    (hreg : isRegistryHost seg = false) :
    parseImageReferenceBase s = hubParse s := by
  rw [parseImageReferenceBase, hm]
  simp [hreg]

theorem parseBase_eq_hub_of_none {s : List Char}
    (hm : registryRegexMatch s = none) :
    parseImageReferenceBase s = hubParse s := by
  rw [parseImageReferenceBase, hm]

theorem parseBase_Original (s : List Char) :
    (parseImageReferenceBase s).Original = s := by
  cases hm : registryRegexMatch s with
  | none => rw [parseBase_eq_hub_of_none hm]; rfl
  | some pr =>
    rcases pr with ⟨seg, rem⟩
    by_cases hreg : isRegistryHost seg = true
    · rw [parseBase_eq_registry hm hreg]
    · rw [parseBase_eq_hub_of_match hm (Bool.eq_false_iff.mpr hreg)]; rfl

theorem parseBase_Digest (s : List Char) :
    (parseImageReferenceBase s).Digest = [] := by
  cases hm : registryRegexMatch s with
  | none => rw [parseBase_eq_hub_of_none hm]; rfl
  | some pr =>
    rcases pr with ⟨seg, rem⟩
    by_cases hreg : isRegistryHost seg = true
    · rw [parseBase_eq_registry hm hreg]
    · rw [parseBase_eq_hub_of_match hm (Bool.eq_false_iff.mpr hreg)]; rfl

theorem parseBase_Registry_ne (s : List Char) :
    (parseImageReferenceBase s).Registry ≠ [] := by
  cases hm : registryRegexMatch s with
  | none => rw [parseBase_eq_hub_of_none hm]; simp [hubParse, chars]
  | some pr =>
    rcases pr with ⟨seg, rem⟩
    by_cases hreg : isRegistryHost seg = true
    · rw [parseBase_eq_registry hm hreg]
      exact (registryRegexMatch_decomp hm).1
    · rw [parseBase_eq_hub_of_match hm (Bool.eq_false_iff.mpr hreg)]
      simp [hubParse, chars]

theorem splitRepoTag_snd_eq_nil {s : List Char}
    (h : (splitRepoTag s).2 = []) : s ≠ [] ∧ s.getLast? = some ':' := by
  rw [splitRepoTag] at h
  cases hi : lastIndexOf ':' s with
  | none =>
    rw [hi] at h
    exact absurd h (by simp [chars])
  | some i =>
    rw [hi] at h
    have hdec := lastIndexOf_decomp hi
    simp only at h
    rw [h] at hdec
    constructor
    · intro hnil
      rw [hnil] at hi
      cases hi
    · rw [hdec, getLast?_append_right (by simp)]
      rfl

theorem splitRepoTag_fst_eq_nil {s : List Char} (hne : s ≠ [])
    (h : (splitRepoTag s).1 = []) : ∃ t, s = ':' :: t := by
  rw [splitRepoTag] at h
  cases hi : lastIndexOf ':' s with
  | none =>
    rw [hi] at h
    exact absurd h hne
  | some i =>
    rw [hi] at h
    simp only at h
    have hdec := lastIndexOf_decomp hi
    rcases List.take_eq_nil_iff.mp h with hi0 | hnil
    · subst hi0
      rw [h] at hdec
      exact ⟨s.drop 1, by simpa using hdec⟩
    · exact absurd hnil hne

theorem hubParse_Repository_ne (s : List Char) :
    (hubParse s).Repository ≠ [] := by
  rw [hubParse]
  simp only
  rw [addLibrary]
  by_cases hc : containsSeq (chars "/") (splitRepoTag s).1 = true
  · rw [if_pos hc]
    intro hnil
    rw [hnil] at hc
    exact absurd hc (by decide)
  · rw [if_neg hc]
    simp [chars]

theorem hubParse_Tag_eq_nil {s : List Char} (h : (hubParse s).Tag = []) :
    s.getLast? = some ':' := by
  rw [hubParse] at h
  exact (splitRepoTag_snd_eq_nil h).2

/-- The source's recursive digest branch, re-established for the embedding:
with exactly one at sign, the recursive parse of the base equals the
digest-free parse, so the embedding computes the same reference the
recursive source does. -/
theorem parseImageReference_digest_eq {s baseRef digest : List Char}
    (hc : containsSeq (chars "@sha256:") s = true)
    (hsplit : goSplit '@' s = [baseRef, digest]) :
    parseImageReference baseRef = some (parseImageReferenceBase baseRef) ∧
    parseImageReference s =
      (parseImageReference baseRef).map fun r =>
        { r with Digest := digest, Original := s } := by
  have hbase : containsSeq (chars "@sha256:") baseRef = false :=
    containsSeq_eq_false_of_not_mem (by decide : '@' ∈ chars "@sha256:")
      (goSplit_pair hsplit).2.1
  refine ⟨parse_of_no_digest hbase, ?_⟩
  rw [parse_of_no_digest hbase, parseImageReference, if_pos hc, hsplit]
  rfl

theorem parseBase_Tag_eq_nil {s : List Char}
    (h : (parseImageReferenceBase s).Tag = []) :
    s.getLast? = some ':' ∨ '\n' ∈ s := by
  cases hm : registryRegexMatch s with
  | none =>
    rw [parseBase_eq_hub_of_none hm] at h
    exact Or.inl (hubParse_Tag_eq_nil h)
  | some pr =>
    rcases pr with ⟨seg, rem⟩
    by_cases hreg : isRegistryHost seg = true
    · rw [parseBase_eq_registry hm hreg] at h
      rcases splitRepoTag_snd_eq_nil h with ⟨hrne, hrlast⟩
      rcases registryRegexMatch_decomp hm with ⟨hsegne, hremne, tail, hsdec, htail⟩
      by_cases hnl : '\n' ∈ s
      · exact Or.inr hnl
      · left
        have hseq : s = seg ++ '/' :: rem := by
          rw [hsdec, htail hnl, List.append_nil]
        have h2 : ('/' :: rem).getLast? = rem.getLast? := by
          rw [show '/' :: rem = ['/'] ++ rem from rfl,
            getLast?_append_right hremne]
        rw [hseq, getLast?_append_right (by simp), h2]
        exact hrlast
    · rw [parseBase_eq_hub_of_match hm (Bool.eq_false_iff.mpr hreg)] at h
      exact Or.inl (hubParse_Tag_eq_nil h)

theorem parseBase_Repository_eq_nil {s : List Char}
    (h : (parseImageReferenceBase s).Repository = []) :
    containsSeq (chars "/:") s = true := by
  cases hm : registryRegexMatch s with
  | none =>
    rw [parseBase_eq_hub_of_none hm] at h
    exact absurd h (hubParse_Repository_ne s)
  | some pr =>
    rcases pr with ⟨seg, rem⟩
    by_cases hreg : isRegistryHost seg = true
    · rw [parseBase_eq_registry hm hreg] at h
      rcases registryRegexMatch_decomp hm with ⟨hsegne, hremne, tail, hsdec, _⟩
      rcases splitRepoTag_fst_eq_nil hremne h with ⟨t, hremt⟩
      rw [containsSeq_iff]
      refine ⟨seg, t ++ tail, ?_⟩
      rw [hsdec, hremt, (by decide : chars "/:" = ['/', ':'])]
      simp
    · rw [parseBase_eq_hub_of_match hm (Bool.eq_false_iff.mpr hreg)] at h
      exact absurd h (hubParse_Repository_ne s)

/-- Bool classification mirroring the stage-or-scratch skip conditions of
parseFromCommand for a node already known to be a FROM. -/
def classifiesAsStage (stages : List (List Char)) (n : Node) : Bool :=
  match n.args with
  | [] => false
  | h :: _ =>
    decide (h ≠ []) &&
      (decide (lower h ∈ stages) || decide (lower h = chars "scratch"))

/-- Bool classification of a FROM node as a genuine, parseable registry
image: a nonempty first argument that is neither a collected stage alias
nor scratch and that parseImageReference accepts. -/
def genuineFrom (stages : List (List Char)) (n : Node) : Bool :=
  match n.args with
  | [] => false
  | h :: _ =>
    decide (h ≠ []) &&
      !(decide (lower h ∈ stages) || decide (lower h = chars "scratch")) &&
      (parseImageReference h).isSome

theorem parseFromCommand_of_stage {stages : List (List Char)} {n : Node}
    (h : classifiesAsStage stages n = true) :
    ∃ img, parseFromCommand stages n = some (img, true) := by
  rw [classifiesAsStage] at h
  cases hargs : n.args with
  | nil => rw [hargs] at h; cases h
  | cons hd tl =>
    rw [hargs] at h
    simp only [Bool.and_eq_true, Bool.or_eq_true, decide_eq_true_eq] at h
    rcases h with ⟨hne, hstage⟩
    refine ⟨⟨[], [], [], [], hd⟩, ?_⟩
    simp only [parseFromCommand, hargs]
    by_cases hmem : lower hd ∈ stages
    · rw [if_neg hne, if_pos hmem]
    · rcases hstage with hmem' | hscratch
      · exact absurd hmem' hmem
      · rw [if_neg hne, if_neg hmem, if_pos hscratch]

theorem parseFromCommand_of_genuine {stages : List (List Char)} {n : Node}
    (h : genuineFrom stages n = true) :
    ∃ r, parseFromCommand stages n = some (r, false) := by
  rw [genuineFrom] at h
  cases hargs : n.args with
  | nil => rw [hargs] at h; cases h
  | cons hd tl =>
    rw [hargs] at h
    simp only [Bool.and_eq_true, Bool.not_eq_true', Bool.or_eq_false_iff,
      decide_eq_true_eq, decide_eq_false_iff_not] at h
    rcases h with ⟨⟨hne, hnmem, hnscratch⟩, hsome⟩
    rcases Option.isSome_iff_exists.mp hsome with ⟨r, hr⟩
    refine ⟨r, ?_⟩
    simp only [parseFromCommand, hargs]
    rw [if_neg hne, if_neg hnmem, if_neg hnscratch, hr]

theorem parseFromCommand_none_or {stages : List (List Char)} {n : Node} :
    classifiesAsStage stages n = true ∨ genuineFrom stages n = true ∨
      parseFromCommand stages n = none := by
  cases hargs : n.args with
  | nil =>
    refine Or.inr (Or.inr ?_)
    simp [parseFromCommand, hargs]
  | cons hd tl =>
    by_cases hne : hd = []
    · refine Or.inr (Or.inr ?_)
      simp only [parseFromCommand, hargs]
      rw [if_pos hne]
    · by_cases hstage : lower hd ∈ stages ∨ lower hd = chars "scratch"
      · left
        rw [classifiesAsStage, hargs]
        simp only [Bool.and_eq_true, Bool.or_eq_true, decide_eq_true_eq]
        exact ⟨hne, hstage⟩
      · rw [not_or] at hstage
        cases hp : parseImageReference hd with
        | none =>
          refine Or.inr (Or.inr ?_)
          simp only [parseFromCommand, hargs]
          rw [if_neg hne, if_neg hstage.1, if_neg hstage.2, hp]
        | some r =>
          refine Or.inr (Or.inl ?_)
          rw [genuineFrom, hargs]
          simp only [Bool.and_eq_true, Bool.not_eq_true',
            Bool.or_eq_false_iff, decide_eq_true_eq,
            decide_eq_false_iff_not]
          exact ⟨⟨hne, hstage.1, hstage.2⟩, by rw [hp]; rfl⟩

theorem not_stage_and_genuine {stages : List (List Char)} {n : Node} :
    ¬(classifiesAsStage stages n = true ∧ genuineFrom stages n = true) := by
  rintro ⟨h1, h2⟩
  rw [classifiesAsStage] at h1
  rw [genuineFrom] at h2
  cases hargs : n.args with
  | nil => rw [hargs] at h1; cases h1
  | cons hd tl =>
    rw [hargs] at h1 h2
    simp only [Bool.and_eq_true, Bool.or_eq_true, decide_eq_true_eq] at h1
    simp only [Bool.and_eq_true, Bool.not_eq_true', Bool.or_eq_false_iff,
      decide_eq_true_eq, decide_eq_false_iff_not] at h2
    rcases h1 with ⟨_, hmem | hscratch⟩
    · exact h2.1.2.1 hmem
    · exact h2.1.2.2 hscratch

theorem extractPass_spec (stages : List (List Char)) (nodes : List Node)
    (h : ∀ n ∈ nodes, isFromNode n = true →
      classifiesAsStage stages n = true ∨ genuineFrom stages n = true) :
    (extractPass stages nodes).map FromCommand.Node =
      nodes.filter (fun n => isFromNode n && genuineFrom stages n) ∧
    (extractPass stages nodes).length +
        (nodes.filter
          (fun n => isFromNode n && classifiesAsStage stages n)).length =
      (nodes.filter isFromNode).length := by
  induction nodes with
  | nil => exact ⟨rfl, rfl⟩
  | cons n rest ih =>
    have hrest := ih (fun m hm => h m (List.mem_cons_of_mem n hm))
    by_cases hf : isFromNode n = true
    · rcases h n (List.mem_cons_self n rest) hf with hstage | hgen
      · rcases parseFromCommand_of_stage hstage with ⟨img, hp⟩
        have hngen : genuineFrom stages n = false :=
          Bool.eq_false_iff.mpr fun hg =>
            not_stage_and_genuine ⟨hstage, hg⟩
        have h3 : extractPass stages (n :: rest) = extractPass stages rest := by
          simp [extractPass, hf, hp]
        constructor
        · rw [h3, List.filter_cons]
          simp only [hf, hngen, Bool.and_false, if_neg, Bool.true_and]
          simp only [Bool.false_eq_true, if_false]
          exact hrest.1
        · have h1 : List.filter
              (fun m => isFromNode m && classifiesAsStage stages m)
              (n :: rest) =
              n :: List.filter
                (fun m => isFromNode m && classifiesAsStage stages m) rest := by
            simp [List.filter_cons, hf, hstage]
          have h2 : List.filter isFromNode (n :: rest) =
              n :: List.filter isFromNode rest := by
            simp [List.filter_cons, hf]
          rw [h3, h1, h2, List.length_cons, List.length_cons]
          have := hrest.2
          omega
      · rcases parseFromCommand_of_genuine hgen with ⟨r, hp⟩
        have hnstage : classifiesAsStage stages n = false :=
          Bool.eq_false_iff.mpr fun hs =>
            not_stage_and_genuine ⟨hs, hgen⟩
        have h3 : extractPass stages (n :: rest) =
            ⟨n, r, n.StartLine, n.EndLine⟩ :: extractPass stages rest := by
          simp [extractPass, hf, hp]
        constructor
        · rw [h3, List.map_cons, hrest.1, List.filter_cons]
          simp [hf, hgen]
        · have h1 : List.filter
              (fun m => isFromNode m && classifiesAsStage stages m)
              (n :: rest) =
              List.filter
                (fun m => isFromNode m && classifiesAsStage stages m) rest := by
            simp [List.filter_cons, hf, hnstage]
          have h2 : List.filter isFromNode (n :: rest) =
              n :: List.filter isFromNode rest := by
            simp [List.filter_cons, hf]
          rw [h3, h1, h2, List.length_cons, List.length_cons]
          have := hrest.2
          omega
    · have hf' : isFromNode n = false := Bool.eq_false_iff.mpr hf
      have h3 : extractPass stages (n :: rest) = extractPass stages rest := by
        simp [extractPass, hf]
      have h1 : List.filter
          (fun m => isFromNode m && classifiesAsStage stages m) (n :: rest) =
          List.filter
            (fun m => isFromNode m && classifiesAsStage stages m) rest := by
        simp [List.filter_cons, hf']
      have h1' : List.filter
          (fun m => isFromNode m && genuineFrom stages m) (n :: rest) =
          List.filter (fun m => isFromNode m && genuineFrom stages m) rest := by
        simp [List.filter_cons, hf']
      have h2 : List.filter isFromNode (n :: rest) =
          List.filter isFromNode rest := by
        simp [List.filter_cons, hf']
      exact ⟨by rw [h3, h1', hrest.1], by rw [h3, h1, h2]; exact hrest.2⟩

/-- Claim C9 (confirmed): every non-empty bare name without slash or colon
parses to registry docker.io, repository library/ plus the name, and tag
latest, with Original the name itself. -/
theorem spec_c9_bare_names (n : List Char) (h1 : n ≠ []) (h2 : '/' ∉ n)
    (h3 : ':' ∉ n) :
    parseImageReference n =
      some ⟨chars "docker.io", chars "library/" ++ n, chars "latest", [],
            n⟩ := by
  have hd : containsSeq (chars "@sha256:") n = false :=
    containsSeq_eq_false_of_not_mem (by decide : ':' ∈ chars "@sha256:") h3
  have hcs : containsSeq (chars "/") n = false :=
    containsSeq_eq_false_of_not_mem (by decide : '/' ∈ chars "/") h2
  rw [parse_of_no_digest hd,
    parseBase_eq_hub_of_none (registryRegexMatch_eq_none_of_no_slash h2)]
  simp [hubParse, splitRepoTag, lastIndexOf_eq_none h3, addLibrary, hcs]

/-- Witness for C9 at the bare name alpine. -/
theorem spec_c9_witness :
    parseImageReference (chars "alpine") =
      some ⟨chars "docker.io", chars "library/" ++ chars "alpine",
            chars "latest", [], chars "alpine"⟩ :=
  spec_c9_bare_names (chars "alpine") (by decide) (by decide) (by decide)

/-- Claim C10 (confirmed): when extraction yields no FROM commands, the
run performs no write and no backup; the file on disk stays untouched. -/
theorem spec_c10_noop_run (ast : List Node) (lines : List (List Char))
    (fetch : ImageReference → Option (List Char))
    (h : extractFromCommands ast = []) :
    runUpdate ast lines fetch = ⟨none, false⟩ := by
  simp [runUpdate, h]

/-- Witness for C10 on a file whose single FROM references scratch. -/
theorem spec_c10_witness :
    runUpdate [⟨chars "FROM", [chars "scratch"], 1, 1⟩]
        [chars "FROM scratch"] (fun _ => some (chars "sha256:abc")) =
      ⟨none, false⟩ :=
  spec_c10_noop_run _ _ _ (by decide)

/-- Claim C5 (confirmed): for inputs containing the digest marker, parsing
fails unless the at-sign split has exactly two parts; on success the
digest part is attached verbatim to the independently canonicalized base
reference and Original is the full input, so the digest survives any
rebuild from the fields. -/
theorem spec_c5_digest_handling (s : List Char)
    (hc : containsSeq (chars "@sha256:") s = true) :
    ((goSplit '@' s).length ≠ 2 → parseImageReference s = none) ∧
    ∀ baseRef digest, goSplit '@' s = [baseRef, digest] →
      s = baseRef ++ '@' :: digest ∧
      ∃ r0, parseImageReference baseRef = some r0 ∧ r0.Digest = [] ∧
        r0.Original = baseRef ∧
        parseImageReference s =
          some { r0 with Digest := digest, Original := s } := by
  constructor
  · intro hlen
    cases hg : goSplit '@' s with
    | nil => simp [parseImageReference, hc, hg]
    | cons a l1 =>
      cases l1 with
      | nil => simp [parseImageReference, hc, hg]
      | cons b l2 =>
        cases l2 with
        | nil => exact absurd (by rw [hg]; rfl) hlen
        | cons c l3 => simp [parseImageReference, hc, hg]
  · intro baseRef digest hg
    have hpair := goSplit_pair hg
    have heq := parseImageReference_digest_eq hc hg
    refine ⟨hpair.1, parseImageReferenceBase baseRef, heq.1,
      parseBase_Digest baseRef, parseBase_Original baseRef, ?_⟩
    rw [heq.2, heq.1]
    rfl

/-- Witness for C5: a double at sign is rejected. -/
theorem spec_c5_witness :
    parseImageReference (chars "a@sha256:b@c") = none :=
  (spec_c5_digest_handling (chars "a@sha256:b@c") (by decide)).1 (by decide)

/-- Claim C2 (confirmed): reconstruction preserves the line count; a line
whose number is not mapped to a resolved command is emitted byte-identical;
a mapped line has exactly the first occurrence of the Original substring
replaced (and is also byte-identical when the substring does not occur). -/
theorem spec_c2_frame (orig : List (List Char)) (cmds : List FromCommand) :
    (reconstructLines orig cmds).length = orig.length ∧
    ∀ k line, orig[k]? = some line →
      (updateMapLookup cmds (k + 1) = none →
        (reconstructLines orig cmds)[k]? = some line) ∧
      ∀ cmd, updateMapLookup cmds (k + 1) = some cmd →
        cmd.Image.Digest ≠ [] ∧ cmd.LineStart = k + 1 ∧
        (containsSeq cmd.Image.Original line = false →
          (reconstructLines orig cmds)[k]? = some line) ∧
        (cmd.Image.Original ≠ [] →
          containsSeq cmd.Image.Original line = true →
          ∃ a b, line = a ++ cmd.Image.Original ++ b ∧
            (reconstructLines orig cmds)[k]? =
              some (a ++ newImageRef cmd.Image ++ b) ∧
            ∀ a' b', line = a' ++ cmd.Image.Original ++ b' →
              a.length ≤ a'.length) := by
  refine ⟨reconstructAux_length _ _ _, ?_⟩
  intro k line hline
  have hidx : 1 + k = k + 1 := Nat.add_comm 1 k
  have hget : (reconstructLines orig cmds)[k]? =
      some (applyLookup (updateMapLookup cmds) (k + 1) line) := by
    rw [reconstructLines, reconstructAux_getElem?, hline, hidx]
    rfl
  constructor
  · intro hnone
    rw [hget, applyLookup, hnone]
  · intro cmd hsome
    have hspec := updateMapLookup_spec hsome
    refine ⟨hspec.2.1, hspec.2.2, ?_, ?_⟩
    · intro hnc
      rw [hget, applyLookup, hsome]
      exact congrArg some (replaceFirst_of_not_contains _ hnc)
    · intro hne hcs
      rcases replaceFirst_first_occurrence (newImageRef cmd.Image) hne hcs
        with ⟨a, b, hsplit, hrepl, hmin⟩
      refine ⟨a, b, hsplit, ?_, hmin⟩
      rw [hget, applyLookup, hsome]
      exact congrArg some hrepl

/-- Witness for C2: an unmapped line is returned unchanged. -/
theorem spec_c2_witness :
    (reconstructLines [chars "RUN ls"] [])[0]? = some (chars "RUN ls") :=
  ((spec_c2_frame [chars "RUN ls"] []).2 0 (chars "RUN ls") (by decide)).1
    (by decide)

/-- Claim C8 (confirmed): an updated line gets repository at digest for
Docker Hub references and registry slash repository at digest otherwise,
substituted for the first occurrence of Original; the concrete scenario
FROM ubuntu colon 20.04 AS base with digest sha256:abc rewrites to
FROM library/ubuntu at sha256:abc AS base. -/
theorem spec_c8_replacement_format :
    (∀ (orig : List (List Char)) (cmds : List FromCommand) (k : Nat)
        (line : List Char) (cmd : FromCommand),
      orig[k]? = some line → updateMapLookup cmds (k + 1) = some cmd →
      (reconstructLines orig cmds)[k]? =
        some (replaceFirst cmd.Image.Original
          (if cmd.Image.Registry = chars "docker.io" then
            cmd.Image.Repository ++ '@' :: cmd.Image.Digest
          else
            cmd.Image.Registry ++ '/' :: cmd.Image.Repository ++
              '@' :: cmd.Image.Digest) line)) ∧
    reconstructLines [chars "FROM ubuntu:20.04 AS base"]
        (updateFromCommandsWithDigests (fun _ => some (chars "sha256:abc"))
          (extractFromCommands
            [⟨chars "FROM", [chars "ubuntu:20.04", chars "AS", chars "base"],
              1, 1⟩])) =
      [chars "FROM library/ubuntu@sha256:abc AS base"] := by
  constructor
  · intro orig cmds k line cmd hline hsome
    have hidx : 1 + k = k + 1 := Nat.add_comm 1 k
    rw [reconstructLines, reconstructAux_getElem?, hline, hidx]
    show some (applyLookup (updateMapLookup cmds) (k + 1) line) = _
    rw [applyLookup, hsome]
    rfl
  · decide

/-- Witness for C8 on a registry-qualified command placed on line one. -/
theorem spec_c8_witness :
    (reconstructLines [chars "FROM gcr.io/distroless/static:nonroot"]
        [⟨⟨chars "FROM", [chars "gcr.io/distroless/static:nonroot"], 1, 1⟩,
          ⟨chars "gcr.io", chars "distroless/static", chars "nonroot",
           chars "sha256:def", chars "gcr.io/distroless/static:nonroot"⟩,
          1, 1⟩])[0]? =
      some (replaceFirst (chars "gcr.io/distroless/static:nonroot")
        (if chars "gcr.io" = chars "docker.io" then
          chars "distroless/static" ++ '@' :: chars "sha256:def"
        else
          chars "gcr.io" ++ '/' :: chars "distroless/static" ++
            '@' :: chars "sha256:def")
        (chars "FROM gcr.io/distroless/static:nonroot")) :=
  spec_c8_replacement_format.1 _ _ 0 _
    ⟨⟨chars "FROM", [chars "gcr.io/distroless/static:nonroot"], 1, 1⟩,
     ⟨chars "gcr.io", chars "distroless/static", chars "nonroot",
      chars "sha256:def", chars "gcr.io/distroless/static:nonroot"⟩, 1, 1⟩
    (by decide) (by decide)

/-- Claim C6 (confirmed): when every FROM node is either a stage or
scratch reference (M of them) or a genuine parseable image, extraction
returns the genuine nodes exactly, in source order, and its length plus M
equals the total FROM count. -/
theorem spec_c6_extraction_count (ast : List Node)
    (h : ∀ n ∈ ast, isFromNode n = true →
      classifiesAsStage (collectStages ast) n = true ∨
        genuineFrom (collectStages ast) n = true) :
    (extractFromCommands ast).map FromCommand.Node =
      ast.filter
        (fun n => isFromNode n && genuineFrom (collectStages ast) n) ∧
    (extractFromCommands ast).length +
        (ast.filter (fun n =>
          isFromNode n && classifiesAsStage (collectStages ast) n)).length =
      (ast.filter isFromNode).length :=
  extractPass_spec (collectStages ast) ast h

/-- Witness for C6: four FROM nodes, two of them stage or scratch
references, extract to exactly two commands. -/
theorem spec_c6_witness :
    (extractFromCommands
        [⟨chars "FROM", [chars "ubuntu:20.04", chars "AS", chars "base"],
          1, 1⟩,
         ⟨chars "FROM", [chars "base"], 2, 2⟩,
         ⟨chars "FROM", [chars "scratch"], 3, 3⟩,
         ⟨chars "FROM", [chars "node:16"], 4, 4⟩]).length +
      ([⟨chars "FROM", [chars "ubuntu:20.04", chars "AS", chars "base"],
          1, 1⟩,
        ⟨chars "FROM", [chars "base"], 2, 2⟩,
        ⟨chars "FROM", [chars "scratch"], 3, 3⟩,
        ⟨chars "FROM", [chars "node:16"], 4, 4⟩].filter (fun n =>
          isFromNode n && classifiesAsStage
            (collectStages
              [⟨chars "FROM",
                 [chars "ubuntu:20.04", chars "AS", chars "base"], 1, 1⟩,
               ⟨chars "FROM", [chars "base"], 2, 2⟩,
               ⟨chars "FROM", [chars "scratch"], 3, 3⟩,
               ⟨chars "FROM", [chars "node:16"], 4, 4⟩]) n)).length =
      ([⟨chars "FROM", [chars "ubuntu:20.04", chars "AS", chars "base"],
          1, 1⟩,
        ⟨chars "FROM", [chars "base"], 2, 2⟩,
        ⟨chars "FROM", [chars "scratch"], 3, 3⟩,
        ⟨chars "FROM", [chars "node:16"], 4, 4⟩].filter isFromNode).length :=
  (spec_c6_extraction_count _ (by decide)).2

/-- Claim C7 (confirmed): the stage set is collected from the AS clause of
every FROM node of the whole tree before classification, so a FROM whose
argument matches an alias declared anywhere, before or after it, is
excluded from extraction regardless of declaration order. -/
theorem spec_c7_two_pass_aliases (pre suf : List Node) (n : Node) :
    (∀ m ∈ pre ++ n :: suf, ∀ a, isFromNode m = true →
      collectBuildStageAlias m = some a →
      a ∈ collectStages (pre ++ n :: suf)) ∧
    (isFromNode n = true → ∀ hd, n.args.head? = some hd → hd ≠ [] →
      lower hd ∈ collectStages (pre ++ n :: suf) →
      extractFromCommands (pre ++ n :: suf) =
        extractPass (collectStages (pre ++ n :: suf)) pre ++
          extractPass (collectStages (pre ++ n :: suf)) suf) := by
  constructor
  · intro m hm a hf ha
    exact collectStages_mem hm hf ha
  · intro hf hd hhd hne hmem
    have hp : parseFromCommand (collectStages (pre ++ n :: suf)) n =
        some (⟨[], [], [], [], hd⟩, true) := by
      cases hargs : n.args with
      | nil => rw [hargs] at hhd; cases hhd
      | cons h0 tl =>
        rw [hargs] at hhd
        injection hhd with h0eq
        subst h0eq
        simp only [parseFromCommand, hargs]
        rw [if_neg hne, if_pos hmem]
    have hskip : extractPass (collectStages (pre ++ n :: suf)) (n :: suf) =
        extractPass (collectStages (pre ++ n :: suf)) suf := by
      simp [extractPass, hf, hp]
    rw [extractFromCommands, extractPass_append, hskip]

/-- Witness for C7: a FROM referencing an alias declared only on a LATER
line is still excluded. -/
theorem spec_c7_witness :
    extractFromCommands
        [⟨chars "FROM", [chars "base"], 1, 1⟩,
         ⟨chars "FROM", [chars "ubuntu:20.04", chars "AS", chars "base"],
           2, 2⟩] =
      extractPass
          (collectStages
            [⟨chars "FROM", [chars "base"], 1, 1⟩,
             ⟨chars "FROM", [chars "ubuntu:20.04", chars "AS", chars "base"],
               2, 2⟩]) [] ++
        extractPass
          (collectStages
            [⟨chars "FROM", [chars "base"], 1, 1⟩,
             ⟨chars "FROM", [chars "ubuntu:20.04", chars "AS", chars "base"],
               2, 2⟩])
          [⟨chars "FROM", [chars "ubuntu:20.04", chars "AS", chars "base"],
             2, 2⟩] :=
  (spec_c7_two_pass_aliases []
      [⟨chars "FROM", [chars "ubuntu:20.04", chars "AS", chars "base"],
        2, 2⟩]
      ⟨chars "FROM", [chars "base"], 1, 1⟩).2 (by decide) (chars "base")
    (by decide) (by decide) (by decide)

/-- Claim C1 counterexample: a FROM line already pinned to a digest whose
fetch fails keeps its stale digest (not empty, contradicting the claim)
and reconstruction rewrites its line. -/
theorem spec_c1_counterexample :
    (updateFromCommandsWithDigests (fun _ => none)
        (extractFromCommands
          [⟨chars "FROM", [chars "ubuntu@sha256:abc"], 1, 1⟩])).map
        (fun c => c.Image.Digest) = [chars "sha256:abc"] ∧
    reconstructLines [chars "FROM ubuntu@sha256:abc"]
        (updateFromCommandsWithDigests (fun _ => none)
          (extractFromCommands
            [⟨chars "FROM", [chars "ubuntu@sha256:abc"], 1, 1⟩])) =
      [chars "FROM library/ubuntu@sha256:abc"] := by decide

/-- Claim C1 (corrected): resolution handles every reference independently
of the others; a failed fetch leaves its command untouched, so when the
parsed reference carried no pre-existing digest its Digest stays empty and
reconstruction emits its line byte-identical (no other command sharing the
line number); a pre-pinned reference instead keeps its stale digest. -/
theorem spec_c1_failure_isolation
    (fetch : ImageReference → Option (List Char)) (cmds : List FromCommand) :
    (updateFromCommandsWithDigests fetch cmds).length = cmds.length ∧
    (∀ i : Nat, (updateFromCommandsWithDigests fetch cmds)[i]? =
      (cmds[i]?).map (updOne fetch)) ∧
    ∀ (i : Nat) (cmd : FromCommand), cmds[i]? = some cmd →
      fetch cmd.Image = none → cmd.Image.Digest = [] →
      (updateFromCommandsWithDigests fetch cmds)[i]? = some cmd ∧
      ∀ (orig : List (List Char)) (k : Nat) (line : List Char),
        orig[k]? = some line → cmd.LineStart = k + 1 →
        (∀ (j : Nat) (cmd' : FromCommand), cmds[j]? = some cmd' → j ≠ i →
          cmd'.LineStart ≠ cmd.LineStart) →
        (reconstructLines orig
            (updateFromCommandsWithDigests fetch cmds))[k]? = some line := by
  have hmap := update_eq_map fetch cmds
  refine ⟨by rw [hmap, List.length_map],
    fun i => by rw [hmap, List.getElem?_map], ?_⟩
  intro i cmd hi hfetch hdig
  have hupd : (updateFromCommandsWithDigests fetch cmds)[i]? = some cmd := by
    rw [hmap, List.getElem?_map, hi]
    show some (updOne fetch cmd) = some cmd
    rw [updOne_of_fetch_none hfetch]
  refine ⟨hupd, ?_⟩
  intro orig k line hline hls hothers
  have hnone : updateMapLookup
      (updateFromCommandsWithDigests fetch cmds) (k + 1) = none := by
    apply updateMapLookup_eq_none
    intro x hx
    rw [hmap] at hx
    rcases List.mem_map.mp hx with ⟨c', hc'mem, rfl⟩
    rcases List.mem_iff_getElem.mp hc'mem with ⟨j, hj, hcj⟩
    have hcj' : cmds[j]? = some c' := by
      rw [List.getElem?_eq_getElem hj, hcj]
    rintro ⟨hxd, hxl⟩
    by_cases hji : j = i
    · subst hji
      rw [hi] at hcj'
      injection hcj' with hce
      subst hce
      rw [updOne_of_fetch_none hfetch] at hxd
      exact hxd hdig
    · have hdiff := hothers j c' hcj' hji
      rw [updOne_LineStart] at hxl
      exact hdiff (by rw [hxl, hls])
  have hidx : 1 + k = k + 1 := Nat.add_comm 1 k
  rw [reconstructLines, reconstructAux_getElem?, hline, hidx]
  show some (applyLookup _ (k + 1) line) = _
  rw [applyLookup, hnone]

/-- Witness for C1: a failed fetch on an unpinned reference leaves the
line byte-identical. -/
theorem spec_c1_witness :
    (reconstructLines [chars "FROM alpine"]
        (updateFromCommandsWithDigests (fun _ => none)
          (extractFromCommands
            [⟨chars "FROM", [chars "alpine"], 1, 1⟩])))[0]? =
      some (chars "FROM alpine") :=
  ((spec_c1_failure_isolation (fun _ => none)
      (extractFromCommands [⟨chars "FROM", [chars "alpine"], 1, 1⟩])).2.2 0
    ⟨⟨chars "FROM", [chars "alpine"], 1, 1⟩,
     ⟨chars "docker.io", chars "library/alpine", chars "latest", [],
      chars "alpine"⟩, 1, 1⟩
    (by decide) rfl (by decide)).2 [chars "FROM alpine"] 0
    (chars "FROM alpine") (by decide) (by decide)
    (by
      intro j cmd' hj hjne
      exfalso
      cases j with
      | zero => exact hjne rfl
      | succ j =>
        have hlen : (extractFromCommands
            [⟨chars "FROM", [chars "alpine"], 1, 1⟩]).length = 1 := by decide
        rw [List.getElem?_eq_none (by rw [hlen]; omega)] at hj
        cases hj)

/-- Claim C3 counterexample: a leading slash-separated segment containing
a dot is not treated as a registry when the segment falls outside the
host character class (underscore), or when the remainder of a digest
reference makes the recursive base parse see an empty remainder. -/
theorem spec_c3_counterexample :
    (chars "a_b.c/d" = chars "a_b.c" ++ '/' :: chars "d" ∧
     '/' ∉ chars "a_b.c" ∧
     containsSeq (chars ".") (chars "a_b.c") = true ∧
     (parseImageReference (chars "a_b.c/d")).map ImageReference.Registry =
       some (chars "docker.io") ∧
     chars "docker.io" ≠ chars "a_b.c") ∧
    (registryRegexMatch (chars "a.b/@sha256:x") =
       some (chars "a.b", chars "@sha256:x") ∧
     containsSeq (chars ".") (chars "a.b") = true ∧
     (parseImageReference (chars "a.b/@sha256:x")).map
         ImageReference.Registry = some (chars "docker.io") ∧
     chars "docker.io" ≠ chars "a.b") := by decide

/-- Claim C3 (corrected): for digest-free references whose leading segment
matches the host pattern of the registry regex, the segment is taken as an
explicit registry iff it contains a dot, a colon, or equals localhost;
references the pattern rejects fall back to Docker Hub; user/repo:tag
parses to docker.io with repository user/repo. -/
theorem spec_c3_registry_heuristic :
    (∀ s seg rem r, containsSeq (chars "@sha256:") s = false →
      registryRegexMatch s = some (seg, rem) →
      parseImageReference s = some r →
      (r.Registry = seg ↔ isRegistryHost seg = true)) ∧
    (∀ s r, containsSeq (chars "@sha256:") s = false →
      registryRegexMatch s = none →
      parseImageReference s = some r → r.Registry = chars "docker.io") ∧
    parseImageReference (chars "user/repo:tag") =
      some ⟨chars "docker.io", chars "user/repo", chars "tag", [],
            chars "user/repo:tag"⟩ := by
  refine ⟨?_, ?_, by decide⟩
  · intro s seg rem r hnd hm hp
    rw [parse_of_no_digest hnd] at hp
    injection hp with hp
    subst hp
    by_cases hreg : isRegistryHost seg = true
    · rw [parseBase_eq_registry hm hreg]
      exact ⟨fun _ => hreg, fun _ => rfl⟩
    · rw [parseBase_eq_hub_of_match hm (Bool.eq_false_iff.mpr hreg)]
      constructor
      · intro hcon
        exfalso
        apply hreg
        rw [show (hubParse s).Registry = chars "docker.io" from rfl] at hcon
        rw [← hcon]
        decide
      · intro hcon
        exact absurd hcon hreg
  · intro s r hnd hm hp
    rw [parse_of_no_digest hnd, parseBase_eq_hub_of_none hm] at hp
    injection hp with hp
    subst hp
    rfl

/-- Witness for C3 on a registry-qualified reference. -/
theorem spec_c3_witness :
    (⟨chars "gcr.io", chars "app", chars "v1", [],
        chars "gcr.io/app:v1"⟩ : ImageReference).Registry = chars "gcr.io" ↔
      isRegistryHost (chars "gcr.io") = true :=
  spec_c3_registry_heuristic.1 (chars "gcr.io/app:v1") (chars "gcr.io")
    (chars "app:v1")
    ⟨chars "gcr.io", chars "app", chars "v1", [], chars "gcr.io/app:v1"⟩
    (by decide) (by decide) (by decide)

/-- Claim C4 counterexample: parsing succeeds on gcr.io/: with BOTH the
Repository and the Tag empty. -/
theorem spec_c4_counterexample :
    parseImageReference (chars "gcr.io/:") =
      some ⟨chars "gcr.io", [], [], [], chars "gcr.io/:"⟩ := by decide

/-- Claim C4 (corrected): every successful parse has a non-empty Registry
and Original equal to the input verbatim; Tag is non-empty provided the
base reference does not end with a colon and holds no newline, and
Repository is non-empty provided the base reference has no slash-colon
sequence. -/
theorem spec_c4_invariants (s : List Char) (r : ImageReference)
    (hp : parseImageReference s = some r) :
    r.Registry ≠ [] ∧ r.Original = s ∧
    (containsSeq (chars "@sha256:") s = false →
      (s.getLast? ≠ some ':' → '\n' ∉ s → r.Tag ≠ []) ∧
      (containsSeq (chars "/:") s = false → r.Repository ≠ [])) ∧
    (∀ baseRef, containsSeq (chars "@sha256:") s = true →
      goSplit '@' s = [baseRef, r.Digest] →
      (baseRef.getLast? ≠ some ':' → '\n' ∉ baseRef → r.Tag ≠ []) ∧
      (containsSeq (chars "/:") baseRef = false → r.Repository ≠ [])) := by
  by_cases hc : containsSeq (chars "@sha256:") s = true
  · rw [parseImageReference, if_pos hc] at hp
    cases hg : goSplit '@' s with
    | nil => rw [hg] at hp; cases hp
    | cons a l1 =>
      cases l1 with
      | nil => rw [hg] at hp; cases hp
      | cons b l2 =>
        cases l2 with
        | cons c l3 => rw [hg] at hp; cases hp
        | nil =>
          rw [hg] at hp
          injection hp with hp
          subst hp
          refine ⟨parseBase_Registry_ne a, rfl, ?_, ?_⟩
          · intro hfalse
            rw [hc] at hfalse
            cases hfalse
          · intro baseRef _ hgb
            injection hgb with hab hrest
            have hab' : baseRef = a := hab.symm
            subst hab'
            constructor
            · intro hlast hnl htag
              have htag' : (parseImageReferenceBase baseRef).Tag = [] := htag
              rcases parseBase_Tag_eq_nil htag' with hend | hmem
              · exact hlast hend
              · exact hnl hmem
            · intro hcs hrep
              have hrep' : (parseImageReferenceBase baseRef).Repository = [] :=
                hrep
              rw [parseBase_Repository_eq_nil hrep'] at hcs
              cases hcs
  · have hc' : containsSeq (chars "@sha256:") s = false :=
      Bool.eq_false_iff.mpr hc
    rw [parse_of_no_digest hc'] at hp
    injection hp with hp
    subst hp
    refine ⟨parseBase_Registry_ne s, parseBase_Original s, ?_, ?_⟩
    · intro _
      constructor
      · intro hlast hnl htag
        rcases parseBase_Tag_eq_nil htag with hend | hmem
        · exact hlast hend
        · exact hnl hmem
      · intro hcs hrep
        rw [parseBase_Repository_eq_nil hrep] at hcs
        cases hcs
    · intro baseRef hfalse _
      rw [hc'] at hfalse
      cases hfalse

/-- Witness for C4 on ubuntu:20.04. -/
theorem spec_c4_witness :
    (⟨chars "docker.io", chars "library/ubuntu", chars "20.04", [],
        chars "ubuntu:20.04"⟩ : ImageReference).Registry ≠ [] ∧
    (⟨chars "docker.io", chars "library/ubuntu", chars "20.04", [],
        chars "ubuntu:20.04"⟩ : ImageReference).Original =
      chars "ubuntu:20.04" :=
  ⟨(spec_c4_invariants (chars "ubuntu:20.04")
      ⟨chars "docker.io", chars "library/ubuntu", chars "20.04", [],
       chars "ubuntu:20.04"⟩ (by decide)).1,
   (spec_c4_invariants (chars "ubuntu:20.04")
      ⟨chars "docker.io", chars "library/ubuntu", chars "20.04", [],
       chars "ubuntu:20.04"⟩ (by decide)).2.1⟩

end CFU
